import Mathlib

/-!
Verification of the retrieval core of the privateai-chatspace repository.

Python text is modelled as `List Char` (one entry per code point, matching
Python `len`/indexing).  Python `float` scores are modelled as exact
rationals `ℚ`; integer/float comparisons such as
`len(a) + len(b) <= chunk_size * 1.5` are modelled exactly
(`2*(len a + len b) ≤ 3*chunk_size`).

Sections below follow the source files:
* `backend/app/services/document_service.py` (chunking)
* `backend/app/services/vector_store/base.py` (metadata extraction)
* `backend/app/services/vector_store/qdrant_store.py` (hybrid / dense search)
* `backend/app/services/vector_store/lancedb_store.py` (dense search)
* `backend/app/services/reranker_service.py` (cross-encoder reranking)
* `backend/app/services/rag_service.py` (retrieval orchestration)
-/

namespace PrivateAI

/-- Python `str.strip()` whitespace set: `" \t\n\r\v\f"`. -/
def isPySpace (c : Char) : Bool :=
  c == ' ' || c == '\t' || c == '\n' || c == '\r' || c == '\x0b' || c == '\x0c'

/-- Python `s.strip()`: drop leading and trailing whitespace. -/
def pyStrip (l : List Char) : List Char :=
  ((l.dropWhile isPySpace).reverse.dropWhile isPySpace).reverse

/-- Python `s.split('\n\n')`: split on non-overlapping occurrences of the
separator, scanning left to right; empty pieces are kept. -/
def splitOnNN : List Char → List (List Char)
  | [] => [[]]
  | '\n' :: '\n' :: rest => [] :: splitOnNN rest
  | c :: rest =>
    match splitOnNN rest with
    | [] => [[c]]
    | h :: t => (c :: h) :: t

/-- Helper for `pyWords`: accumulate the current word (reversed). -/
def pyWordsAux (cur : List Char) : List Char → List (List Char)
  | [] => if cur.isEmpty then [] else [cur.reverse]
  | c :: rest =>
    if isPySpace c then
      if cur.isEmpty then pyWordsAux [] rest else cur.reverse :: pyWordsAux [] rest
    else pyWordsAux (c :: cur) rest

/-- Python `s.split()` (no argument): whitespace-delimited words, no empties. -/
def pyWords (l : List Char) : List (List Char) := pyWordsAux [] l

/-- Helper for `toLines`. -/
def toLinesAux (cur : List Char) : List Char → List (List Char × Bool)
  | [] => [(cur.reverse, false)]
  | c :: rest =>
    if c == '\n' then (cur.reverse, true) :: toLinesAux [] rest
    else toLinesAux (c :: cur) rest

/-- Decompose text into lines: each entry is the line content (without the
terminating `'\n'`) together with a flag telling whether the line was in
fact terminated by `'\n'`. -/
def toLines (l : List Char) : List (List Char × Bool) := toLinesAux [] l

/-- Helper for the `re.split(r'\n(?=MARKER)', text)` calls in
`DocumentService.chunk_text`: split at every `'\n'` that is immediately
followed by the marker.  The `'\n'` is consumed, the marker is kept. -/
def splitBeforeAux (marker : List Char) (cur : List Char) : List Char → List (List Char)
  | [] => [cur.reverse]
  | c :: rest =>
    if c == '\n' && marker.isPrefixOf rest then
      cur.reverse :: splitBeforeAux marker [] rest
    else splitBeforeAux marker (c :: cur) rest

/-- `re.split(r'\n(?=## )', text)` from `chunk_text`. -/
def sectionSplit (t : List Char) : List (List Char) :=
  splitBeforeAux ['#', '#', ' '] [] t

/-- `re.split(r'\n(?=### )', section)` from `chunk_text`. -/
def subsectionSplit (t : List Char) : List (List Char) :=
  splitBeforeAux ['#', '#', '#', ' '] [] t

/-- Index of the first `'|'` in a line (= line length when there is none). -/
def firstPipeIdx (l : List Char) : Nat := (l.takeWhile (· != '|')).length

/-- A line at which a match of the table pattern
`(\|[^\n]+\|\n(?:\|[-:| ]+\|\n)?(?:\|[^\n]+\|\n)*)` can start: the line is
terminated by `'\n'`, its last character is `'|'`, and its first `'|'` is
followed by at least one further character before that final `'|'`.
The match then starts at the first `'|'` of the line. -/
def isStartRow (line : List Char) (term : Bool) : Bool :=
  term && (line.getLast? == some '|') && decide (firstPipeIdx line + 3 ≤ line.length)

/-- A line that continues a table match: it must begin right after the
previous row's `'\n'`, so it starts with `'|'`, ends with `'|'`, has at
least one character in between, and is `'\n'`-terminated.  (The optional
separator-row alternative `\|[-:| ]+\|\n` of the pattern matches a subset
of these lines, so it does not enlarge the match.) -/
def isContRow (line : List Char) (term : Bool) : Bool :=
  term && decide (3 ≤ line.length) && (line.head? == some '|') && (line.getLast? == some '|')

/-- `re.split(table_pattern, text)` with the capture group, as used in
`DocumentService._split_preserving_tables`: the output alternates
non-matching text and matched table blocks (tagged `true`); it always
ends with a (possibly empty) non-matching tail, like Python's
`re.split`.  The state is the pending non-matching text `pre` and, when
inside a match, the accumulated block (`some block`).  A line that is a
continuation row extends the block (the regex's greedy `*`); a line that
merely starts a new match closes the current one (re.split emits the
parts and resumes scanning right after the match). -/
def tableSplitGo : Option (List Char) → List Char → List (List Char × Bool) →
    List (List Char × Bool)
  | none, pre, [] => [(pre, false)]
  | some block, pre, [] => (pre, false) :: (block, true) :: [([], false)]
  | none, pre, (line, term) :: rest =>
    if isStartRow line term then
      tableSplitGo (some (line.drop (firstPipeIdx line) ++ ['\n']))
        (pre ++ line.take (firstPipeIdx line)) rest
    else tableSplitGo none (pre ++ line ++ (if term then ['\n'] else [])) rest
  | some block, pre, (line, term) :: rest =>
    if isContRow line term then tableSplitGo (some (block ++ line ++ ['\n'])) pre rest
    else if isStartRow line term then
      (pre, false) :: (block, true) ::
        tableSplitGo (some (line.drop (firstPipeIdx line) ++ ['\n']))
          (line.take (firstPipeIdx line)) rest
    else
      (pre, false) :: (block, true) ::
        tableSplitGo none (line ++ (if term then ['\n'] else [])) rest

/-- All parts produced by the table-pattern split of a text. -/
def tableSplit (t : List Char) : List (List Char × Bool) := tableSplitGo none [] (toLines t)

/-- The table blocks matched by the table pattern in a text. -/
def tableBlocks (t : List Char) : List (List Char) :=
  ((tableSplit t).filter (·.2)).map (·.1)

/-- `is_table = part.strip().startswith('|') and '|' in part`. -/
def isTablePart (part : List Char) : Bool :=
  ((pyStrip part).head? == some '|') && part.contains '|'

/-- State of the accumulation loop in `_split_preserving_tables`:
the emitted chunks so far and the current chunk being accumulated. -/
abbrev ChunkState := List (List Char) × List Char

/-- Append `current_chunk.strip()` to the chunk list when non-empty
(`if current_chunk.strip(): chunks.append(current_chunk.strip())`). -/
def flushCurrent (st : ChunkState) : List (List Char) :=
  if pyStrip st.2 ≠ [] then st.1 ++ [pyStrip st.2] else st.1

/-- The inner `for para in paragraphs` loop of `_split_preserving_tables`.
`cs` is `chunk_size`, `ov` is `overlap`.  The overlap carry
`chunks[-1].split()[-overlap//10:]` parses in Python as
`[(-overlap)//10:]`, keeping the last `⌈overlap/10⌉` words of the
previous chunk (so at least one word whenever `overlap > 0`). -/
def paraFold (cs ov : Nat) : ChunkState → List (List Char) → ChunkState
  | st, [] => st
  | (chunks, current), para :: rest =>
    if current.length + para.length ≤ cs then
      paraFold cs ov
        (chunks, current ++ (if current.isEmpty then [] else ['\n', '\n']) ++ para) rest
    else
      let chunks' := flushCurrent (chunks, current)
      let newCur :=
        if chunks' ≠ [] ∧ 0 < ov then
          let ws := pyWords (chunks'.getLastD [])
          let k := (ov + 9) / 10
          let prev := ws.drop (ws.length - k)
          (List.intercalate [' '] prev) ++ '\n' :: '\n' :: para
        else para
      paraFold cs ov (chunks', newCur) rest

/-- The outer `for part in parts` loop of `_split_preserving_tables`.
A table part is kept intact, joining the current chunk only while the
total stays within `chunk_size * 1.5` (modelled exactly as
`2*(len current + len part) ≤ 3*chunk_size`); other parts are folded
paragraph by paragraph. -/
def partFold (cs ov : Nat) : ChunkState → List (List Char) → ChunkState
  | st, [] => st
  | (chunks, current), part :: rest =>
    if pyStrip part = [] then partFold cs ov (chunks, current) rest
    else if isTablePart part then
      if 2 * (current.length + part.length) ≤ 3 * cs then
        partFold cs ov (chunks, current ++ part) rest
      else partFold cs ov (flushCurrent (chunks, current), part) rest
    else partFold cs ov (paraFold cs ov (chunks, current) (splitOnNN part)) rest

/-- `DocumentService._split_preserving_tables(text, chunk_size, overlap)`. -/
def split_preserving_tables (text : List Char) (cs ov : Nat) : List (List Char) :=
  let parts := (tableSplit text).map (·.1)
  let st := partFold cs ov ([], []) parts
  flushCurrent st

/-- `DocumentService.chunk_text(text, chunk_size, overlap)`.
The two nested loops append chunks in order, which is exactly a `flatMap`
over sections and subsections; the final line filters chunks with
`if c and len(c) > 50`. -/
def chunk_text (text : List Char) (cs ov : Nat) : List (List Char) :=
  if text.length ≤ cs then [text]
  else
    ((sectionSplit text).flatMap (fun sec =>
      if sec.length ≤ cs then
        (if pyStrip sec ≠ [] then [pyStrip sec] else [])
      else
        (subsectionSplit sec).flatMap (fun sub =>
          if sub.length ≤ cs then
            (if pyStrip sub ≠ [] then [pyStrip sub] else [])
          else split_preserving_tables sub cs ov))).filter
      (fun c => !c.isEmpty && decide (50 < c.length))

/-! ### `extract_chunk_metadata` (vector_store/base.py) -/

/-- `re.search(r'\|[^\n]+\|', chunk)`: some line contains two `'|'`
characters with at least one character strictly between them. -/
def hasTableRe (chunk : List Char) : Bool :=
  (toLines chunk).any fun lt => ((lt.1.dropWhile (· != '|')).drop 2).contains '|'

/-- Scan for the first occurrence of three consecutive backquotes and
return the remaining suffix. -/
def afterFence : List Char → Option (List Char)
  | a :: b :: c :: rest =>
    if a == Char.ofNat 96 && b == Char.ofNat 96 && c == Char.ofNat 96 then some rest
    else afterFence (b :: c :: rest)
  | _ => none

/-- The fenced-code pattern (three backquotes, lazily anything, three
backquotes): two non-overlapping fences occur in the chunk. -/
def hasCodeRe (chunk : List Char) : Bool :=
  match afterFence chunk with
  | some rest => (afterFence rest).isSome
  | none => false

/-- `re.search(r'^\s*[-*•]\s', chunk, re.MULTILINE)` specialised to one
line: optional leading whitespace, a bullet character, then a whitespace
character (which may be the line's terminating newline).  Because `^`
matches at every line start, letting `\s*` run across newlines adds no
matches beyond some line satisfying this. -/
def lineIsBullet (line : List Char) (term : Bool) : Bool :=
  let rest := line.dropWhile isPySpace
  match rest with
  | [] => false
  | b :: after =>
    (b == '-' || b == '*' || b == '•') &&
      (match after with
       | [] => term
       | c :: _ => isPySpace c)

/-- `re.search(r'^\s*[-*•]\s', chunk, re.MULTILINE)`. -/
def hasListRe (chunk : List Char) : Bool :=
  (toLines chunk).any fun lt => lineIsBullet lt.1 lt.2

/-- Helper for multiline `re.search`: does `p` hold at some position
right after a `'\n'`? -/
def multilineAnyAux (p : List Char → Bool) : List Char → Bool
  | [] => false
  | c :: rest => (c == '\n' && p rest) || multilineAnyAux p rest

/-- `re.search(pat, chunk, re.MULTILINE)` for a pattern anchored with
`^`: `p` holds on some suffix starting at the beginning or right after a
`'\n'`. -/
def multilineAny (p : List Char → Bool) (l : List Char) : Bool :=
  p l || multilineAnyAux p l

/-- `#{1,6}\s` at the current position: a run of one to six `'#'`
followed by a whitespace character (possibly a `'\n'`).  A run of more
than six `'#'` cannot match, since backtracking `#{1,6}` still faces a
`'#'` where `\s` is required. -/
def headingAt (l : List Char) : Bool :=
  let h := (l.takeWhile (· == '#')).length
  decide (1 ≤ h) && decide (h ≤ 6) &&
    (match (l.drop h).head? with
     | some c => isPySpace c
     | none => false)

/-- `re.search(r'^#{1,6}\s', chunk, re.MULTILINE)` — used for `has_header`. -/
def hasHeaderRe (chunk : List Char) : Bool :=
  multilineAny headingAt chunk

/-- The lazy group `(.+?)(?:\n|$)`: the shortest non-empty run of
non-newline characters ending at a newline or at the end of input, which
is exactly everything up to the first newline (failing on an immediate
newline or empty input). -/
def lazyTitle (u : List Char) : Option (List Char) :=
  let t := u.takeWhile (· != '\n')
  if t.isEmpty then none else some t

/-- Backtracking for greedy `\s+` followed by the lazy title group: try
the longest whitespace prefix first, then shorter non-empty ones. -/
def wsBacktrack (r : List Char) : Nat → Option (List Char)
  | 0 => none
  | n + 1 =>
    match lazyTitle (r.drop (n + 1)) with
    | some t => some t
    | none => wsBacktrack r n

/-- After the hashes, `\s+(.+?)(?:\n|$)`. -/
def wsTitle (r : List Char) : Option (List Char) :=
  wsBacktrack r (r.takeWhile isPySpace).length

/-- `re.match(r'^(#{1,6})\s+(.+?)(?:\n|$)', chunk)`: the anchored header
match; returns (number of heading marks, raw title group).  Only the full
leading `'#'` run can serve as group 1 (a shorter prefix is followed by
`'#'`, which `\s` rejects), so the match requires that run to have length
one to six. -/
def headerMatch (chunk : List Char) : Option (Nat × List Char) :=
  let h := (chunk.takeWhile (· == '#')).length
  if 1 ≤ h ∧ h ≤ 6 then
    match wsTitle (chunk.drop h) with
    | some t => some (h, t)
    | none => none
  else none

/-- The `ChunkMetadata` dataclass of `vector_store/base.py`. -/
structure ChunkMetadata where
  chunk_index : Nat
  char_count : Nat
  word_count : Nat
  content_type : List Char
  has_table : Bool
  has_code : Bool
  has_list : Bool
  has_header : Bool
  section_level : Option Nat
  section_title : Option (List Char)
  deriving Repr, DecidableEq

/-- `extract_chunk_metadata(chunk, chunk_index)` from
`vector_store/base.py`. -/
def extract_chunk_metadata (chunk : List Char) (chunk_index : Nat) : ChunkMetadata :=
  let has_table := hasTableRe chunk
  let has_code := hasCodeRe chunk
  let has_list := hasListRe chunk
  let has_header := hasHeaderRe chunk
  let content_type : List Char :=
    if has_table then ['t', 'a', 'b', 'l', 'e']
    else if has_code then ['c', 'o', 'd', 'e']
    else if has_list then ['l', 'i', 's', 't']
    else ['t', 'e', 'x', 't']
  let hm := headerMatch chunk
  { chunk_index := chunk_index
    char_count := chunk.length
    word_count := (pyWords chunk).length
    content_type := content_type
    has_table := has_table
    has_code := has_code
    has_list := has_list
    has_header := has_header
    section_level := hm.map (·.1)
    section_title := hm.map (fun p => pyStrip p.2) }

/-! ### `QdrantVectorStore` (qdrant_store.py) -/

/-- A point returned by `client.query_points`: an opaque point id
(`str(hit.id)`) plus its payload content.  RRF fusion only reads the id
and keeps the first-seen hit object. -/
structure QHit where
  pid : Nat
  content : List Char
  deriving Repr, DecidableEq

/-- The `rrf_scores` dict of `_hybrid_search`, as an insertion-ordered
association list keyed by point id: `rrf_scores[pid] = {"hit": hit,
"score": 0.0}` on first sight, then `+= delta`; an update keeps the
first-seen hit and the insertion position (Python dicts preserve key
order under value update). -/
def rrfUpdate : List (QHit × ℚ) → QHit → ℚ → List (QHit × ℚ)
  | [], h, d => [(h, d)]
  | (h', s) :: rest, h, d =>
    if h'.pid = h.pid then (h', s + d) :: rest
    else (h', s) :: rrfUpdate rest h d

/-- Score stored for a point id, if present. -/
def rrfLookup (m : List (QHit × ℚ)) (pid : Nat) : Option ℚ :=
  match m.find? (fun e => e.1.pid == pid) with
  | some e => some e.2
  | none => none

/-- `for rank, hit in enumerate(results.points): rrf_scores[...]​["score"]
+= 1.0 / (k + rank + 1)` with `k = 60`, starting at `rank`. -/
def rrfAddFrom (m : List (QHit × ℚ)) (rank : Nat) : List QHit → List (QHit × ℚ)
  | [] => m
  | h :: rest => rrfAddFrom (rrfUpdate m h (1 / (60 + rank + 1 : ℚ))) (rank + 1) rest

/-- The fused score map after both enumeration loops of `_hybrid_search`
(dense first, then sparse). -/
def rrfMap (dense sparse : List QHit) : List (QHit × ℚ) :=
  rrfAddFrom (rrfAddFrom [] 0 dense) 0 sparse

/-- `QdrantVectorStore._hybrid_search`, given the backend's top-`2*limit`
dense and sparse point lists: manual RRF fusion, then
`sorted(..., key=score, reverse=True)[:limit]` (Python's sort is stable;
`mergeSort` with `b.2 ≤ a.2` is its stable descending counterpart).
The `score_threshold` argument is received but never used by the body
(the code comments that RRF scores are not comparable to cosine
similarity). -/
def hybrid_search (dense sparse : List QHit) (limit : Nat)
    (score_threshold : ℚ) : List (QHit × ℚ) :=
  ((rrfMap dense sparse).mergeSort (fun a b => decide (b.2 ≤ a.2))).take limit

/-- A scored point as returned by `client.query_points` for dense search. -/
structure QScoredHit where
  pid : Nat
  content : List Char
  score : ℚ
  deriving Repr, DecidableEq

/-- The `score_threshold` parameter `_dense_search` forwards to the
backend: `score_threshold if score_threshold > 0 else None`. -/
def qdrantThresholdParam (t : ℚ) : Option ℚ := if 0 < t then some t else none

/-- `QdrantVectorStore._dense_search` over the backend's response:
`[_hit_to_search_result(hit, hit.score) for hit in results.points]` —
each backend score is passed through unmodified (no clamping, no local
threshold check). -/
def dense_search (points : List QScoredHit) : List (QScoredHit × ℚ) :=
  points.map (fun h => (h, h.score))

/-! ### `LanceDBVectorStore` (lancedb_store.py) -/

/-- A standardized search result (`SearchResult` in vector_store/base.py;
presentation-only payload fields are omitted). -/
structure SearchResult where
  content : List Char
  score : ℚ
  document_id : Int
  chunk_index : Nat
  deriving Repr, DecidableEq

/-- A row of the LanceDB response: the backend-reported `_distance`
plus payload fields. -/
structure LanceItem where
  distance : ℚ
  content : List Char
  document_id : Int
  chunk_index : Nat
  deriving Repr, DecidableEq

/-- `LanceDBVectorStore._distance_to_similarity`:
`similarity = 1 - distance/2`, clamped to `[0, 1]`.  (The guard for a
non-numeric `distance` returns `0.0`; here the distance is a number by
typing.) -/
def distance_to_similarity (d : ℚ) : ℚ := max 0 (min 1 (1 - d / 2))

/-- The result loop of `LanceDBVectorStore.search`: convert each
distance to a similarity score and skip rows with
`score < score_threshold`. -/
def lancedb_search (items : List LanceItem) (score_threshold : ℚ) : List SearchResult :=
  items.filterMap fun it =>
    let score := distance_to_similarity it.distance
    if score < score_threshold then none
    else some ⟨it.content, score, it.document_id, it.chunk_index⟩

/-! ### `RerankerService.rerank` (reranker_service.py)

Candidate dictionaries are mutable Python objects; to state the frame
property we model the heap explicitly: dictionaries live in a `store`
(indexed by allocation order) and the candidate list holds references
(indices) into it.  `candidate.copy()` followed by
`candidate_copy['rerank_score'] = score` allocates a fresh dictionary
whose entries are the original's plus the new key; nothing ever writes
to a dictionary reachable from the input list. -/

/-- A Python scalar value stored in a candidate dictionary. -/
inductive PyVal where
  | s (v : List Char)
  | q (v : ℚ)
  | i (v : Int)
  | b (v : Bool)
  deriving Repr, DecidableEq

/-- A Python dict with string keys, as an insertion-ordered
association list. -/
abbrev PyDict := List (List Char × PyVal)

/-- `d[k] = v`: replace in place, or append a new key. -/
def setKey : PyDict → List Char → PyVal → PyDict
  | [], k, v => [(k, v)]
  | (k', v') :: rest, k, v =>
    if k' = k then (k', v) :: rest else (k', v') :: setKey rest k v

/-- Read a rational value (`x['rerank_score']`), defaulting to `0`. -/
def getQD (d : PyDict) (k : List Char) : ℚ :=
  match d.find? (fun e => e.1 == k) with
  | some (_, PyVal.q v) => v
  | _ => 0

/-- The `'rerank_score'` key. -/
def rerankKey : List Char := ['r', 'e', 'r', 'a', 'n', 'k', '_', 's', 'c', 'o', 'r', 'e']

/-- `RerankerService.rerank(query, candidates, top_k, ...)`.
`modelLoaded` is the truthiness of `self.model`; `predictScores` is the
outcome of `self.model.predict(pairs)` (`none` = the call raised, taking
the `except` branch).  Returns the references making up the returned
list, together with the store after the call.  On the fallback paths the
code returns `candidates[:top_k]` — the original references, allocating
nothing; on success `zip(candidates, scores)` pairs them up (truncating
to the shorter), each pair allocates a copy with `rerank_score` set, and
the copies are sorted by that score descending (Python's stable sort)
and truncated to `top_k`. -/
def rerank (store : List PyDict) (candidates : List Nat) (modelLoaded : Bool)
    (predictScores : Option (List ℚ)) (top_k : Nat) : List Nat × List PyDict :=
  if !modelLoaded || candidates.isEmpty then (candidates.take top_k, store)
  else
    match predictScores with
    | none => (candidates.take top_k, store)
    | some scores =>
      let pairs := candidates.zip scores
      let newDicts := pairs.map fun p => setKey (store.getD p.1 []) rerankKey (PyVal.q p.2)
      let newRefs := List.range' store.length newDicts.length
      let store' := store ++ newDicts
      let sorted := newRefs.mergeSort fun a b =>
        decide (getQD (store'.getD b []) rerankKey ≤ getQD (store'.getD a []) rerankKey)
      (sorted.take top_k, store')

/-! ### `RAGService.search` (rag_service.py)

The orchestration loop, with its external collaborators as inputs: each
query variant's iteration either raises while embedding
(`embedding_service.embed_text`) — modelled as `none` — or produces the
vector store's result list (the store's own `search` catches its errors
internally and returns `[]`, never raising).  The whole loop body sits
inside one `try:`, whose `except` returns `[]`.  Reranking is disabled
(`use_reranking=False` path). -/

/-- Replace the value stored at a key, keeping its position. -/
def dedupReplace : List (Int × SearchResult) → Int → SearchResult → List (Int × SearchResult)
  | [], _, _ => []
  | (k', v) :: rest, k, r =>
    if k' = k then (k', r) :: rest else (k', v) :: dedupReplace rest k r

/-- One iteration of the deduplication loop:
`content_key = hash(result.content)`; insert if absent, else replace
in place when the new score is strictly greater.  `h` is Python's
string hash. -/
def dedupStep (h : List Char → Int) (m : List (Int × SearchResult))
    (r : SearchResult) : List (Int × SearchResult) :=
  let key := h r.content
  match m.find? (fun e => e.1 == key) with
  | none => m ++ [(key, r)]
  | some e => if e.2.score < r.score then dedupReplace m key r else m

/-- Fold a variant's results into the `all_candidates` dict. -/
def mergeCandidates (h : List Char → Int) (m : List (Int × SearchResult))
    (rs : List SearchResult) : List (Int × SearchResult) :=
  rs.foldl (dedupStep h) m

/-- The `for q in queries` loop: a `none` outcome (embedding raised)
aborts the loop — the exception propagates to the outer `except`. -/
def ragCollect (h : List Char → Int) :
    List (Option (List SearchResult)) → List (Int × SearchResult) →
    Option (List (Int × SearchResult))
  | [], m => some m
  | none :: _, _ => none
  | some rs :: rest, m => ragCollect h rest (mergeCandidates h m rs)

/-- `RAGService.search` (reranking disabled): collect candidates over all
variants, deduplicate, `sorted(..., key=score, reverse=True)[:limit]`;
any exception inside the `try` yields `[]`. -/
def rag_search (h : List Char → Int) (outcomes : List (Option (List SearchResult)))
    (limit : Nat) : List SearchResult :=
  match ragCollect h outcomes [] with
  | none => []
  | some m =>
    ((m.map (·.2)).mergeSort (fun a b => decide (b.score ≤ a.score))).take limit

/-! ## Claim C7: hybrid search ignores `score_threshold` -/

/-- **C7** (confirmed): hybrid search output does not depend on
`score_threshold`: for every pair of dense/sparse backend sublists,
limit, and any two threshold values, `_hybrid_search` returns identical
result lists — no RRF-fused score is ever compared against
`score_threshold`. -/
theorem c7_hybrid_ignores_threshold (dense sparse : List QHit) (limit : Nat)
    (t1 t2 : ℚ) :
    hybrid_search dense sparse limit t1 = hybrid_search dense sparse limit t2 := rfl

/-! ## Claim C8: `chunk_text` on the empty string -/

/-- **C8** (counterexample): the claim `chunk_text("") = []` fails: at
`max_size = 1000`, `overlap = 200` the early `len(text) <= chunk_size`
branch returns `[text]`, i.e. the one-element list containing the empty
string, which is not the empty list. -/
theorem c8_empty_input_counterexample :
    chunk_text [] 1000 200 = [[]] ∧ chunk_text [] 1000 200 ≠ [] := by
  refine ⟨rfl, ?_⟩
  intro hcontra
  simp [chunk_text] at hcontra

/-- **C8** (amended): `chunk_text` applied to the empty string returns
`[""]` (a single empty chunk) for every `max_size` and `overlap`,
via the early `len(text) <= chunk_size` branch. -/
theorem c8_empty_input_amended (cs ov : Nat) : chunk_text [] cs ov = [[]] := by
  simp [chunk_text]

/-! ## Claim C1: per-variant failure handling in `RAGService.search` -/

theorem mergeCandidates_nil (h : List Char → Int) (m : List (Int × SearchResult)) :
    mergeCandidates h m [] = m := rfl

theorem ragCollect_of_mem_none (h : List Char → Int) :
    ∀ (os : List (Option (List SearchResult))) (m : List (Int × SearchResult)),
      none ∈ os → ragCollect h os m = none
  | [], _, hmem => absurd hmem (List.not_mem_nil _)
  | none :: _, _, _ => rfl
  | some rs :: rest, m, hmem => by
    have hr : none ∈ rest := by
      rcases List.mem_cons.mp hmem with h1 | h1
      · exact absurd h1 (by simp)
      · exact h1
    simpa [ragCollect] using
      ragCollect_of_mem_none h rest (mergeCandidates h m rs) hr

theorem ragCollect_drop_empty (h : List Char → Int) :
    ∀ (os1 os2 : List (Option (List SearchResult))) (m : List (Int × SearchResult)),
      ragCollect h (os1 ++ some [] :: os2) m = ragCollect h (os1 ++ os2) m
  | [], os2, m => by simp [ragCollect, mergeCandidates_nil]
  | none :: _, _, _ => rfl
  | some rs :: os1, os2, m => by
    simpa [ragCollect] using ragCollect_drop_empty h os1 os2 (mergeCandidates h m rs)

/-- **C1** (amended): in `RAGService.search`, only vector-store-level
search failures are harmless per variant: a variant whose store search
failed (the store catches internally and yields `[]`) contributes
nothing and all other variants' candidates are still collected.  An
embedding failure, however, is *not* caught at the per-variant level:
the exception escapes the `for` loop to the surrounding `try`, so the
whole orchestration is aborted and returns the empty list, discarding
every variant's candidates (the caller still never sees an exception). -/
theorem c1_variant_failure_amended :
    (∀ (h : List Char → Int) (os : List (Option (List SearchResult))) (limit : Nat),
        none ∈ os → rag_search h os limit = []) ∧
    (∀ (h : List Char → Int) (os1 os2 : List (Option (List SearchResult))) (limit : Nat),
        rag_search h (os1 ++ some [] :: os2) limit = rag_search h (os1 ++ os2) limit) := by
  constructor
  · intro h os limit hmem
    simp [rag_search, ragCollect_of_mem_none h os [] hmem]
  · intro h os1 os2 limit
    simp [rag_search, ragCollect_drop_empty]

/-- Witness for the amended C1 at concrete inputs. -/
theorem c1_variant_failure_amended_witness :
    rag_search (fun _ => 0) [none] 5 = [] ∧
    rag_search (fun _ => 0)
        [some [⟨['a'], 1, 1, 0⟩], some [] , some [⟨['b'], 2, 2, 0⟩]] 5 =
      rag_search (fun _ => 0) [some [⟨['a'], 1, 1, 0⟩], some [⟨['b'], 2, 2, 0⟩]] 5 :=
  ⟨c1_variant_failure_amended.1 (fun _ => 0) [none] 5 (by simp),
   c1_variant_failure_amended.2 (fun _ => 0) [some [⟨['a'], 1, 1, 0⟩]]
     [some [⟨['b'], 2, 2, 0⟩]] 5⟩

/-- **C1** (counterexample): with two variants, the first succeeding with
one candidate and the second failing while embedding, the orchestration
returns `[]` — the first variant's candidate is *not* kept, refuting
"every other variant's candidates are still collected". -/
theorem c1_embed_failure_counterexample :
    rag_search (fun _ => 0) [some [⟨['a'], 1, 1, 0⟩], none] 5 = [] ∧
    rag_search (fun _ => 0) [some [⟨['a'], 1, 1, 0⟩]] 5 = [⟨['a'], 1, 1, 0⟩] := by
  constructor
  · rfl
  · have hc : ragCollect (fun _ => 0) [some [⟨['a'], 1, 1, 0⟩]] [] =
        some [(0, ⟨['a'], 1, 1, 0⟩)] := rfl
    simp [rag_search, hc, List.mergeSort]

/-! ## Claim C5: cross-variant merge keeps the higher score, first seen on ties -/

/-- The candidate currently stored under a content key. -/
def dedupLookup (m : List (Int × SearchResult)) (k : Int) : Option SearchResult :=
  (m.find? (fun e => e.1 == k)).map (·.2)

/-- Specification-side single step: a repeated key keeps the stored
candidate unless the new score is strictly greater. -/
def dedupPick (cur : Option SearchResult) (r : SearchResult) : Option SearchResult :=
  match cur with
  | none => some r
  | some c => some (if c.score < r.score then r else c)

/-- Specification-side fold of `dedupPick` over the results carrying a
given key. -/
def winnerAux (cur : Option SearchResult) : List SearchResult → Option SearchResult
  | [] => cur
  | r :: rest => winnerAux (dedupPick cur r) rest

theorem dedupLookup_nil (k : Int) : dedupLookup [] k = none := rfl

theorem dedupLookup_cons (x : Int × SearchResult) (m : List (Int × SearchResult))
    (k : Int) :
    dedupLookup (x :: m) k = if x.1 = k then some x.2 else dedupLookup m k := by
  by_cases hx : x.1 = k
  · rw [dedupLookup, List.find?_cons_of_pos _ (by simpa using hx), if_pos hx]
    rfl
  · rw [dedupLookup, List.find?_cons_of_neg _ (by simpa using hx), if_neg hx]
    rfl

theorem dedupStep_nil (h : List Char → Int) (r : SearchResult) :
    dedupStep h [] r = [(h r.content, r)] := rfl

theorem dedupStep_cons_self (h : List Char → Int) (v0 : SearchResult)
    (m : List (Int × SearchResult)) (r : SearchResult) :
    dedupStep h ((h r.content, v0) :: m) r =
      if v0.score < r.score then (h r.content, r) :: m
      else (h r.content, v0) :: m := by
  simp only [dedupStep]
  rw [List.find?_cons_of_pos _ (by simp)]
  by_cases hs : v0.score < r.score
  · simp [hs, dedupReplace]
  · simp [hs]

theorem dedupStep_cons_ne (h : List Char → Int) (k0 : Int) (v0 : SearchResult)
    (m : List (Int × SearchResult)) (r : SearchResult) (hne : k0 ≠ h r.content) :
    dedupStep h ((k0, v0) :: m) r = (k0, v0) :: dedupStep h m r := by
  simp only [dedupStep]
  rw [List.find?_cons_of_neg _ (by simpa using hne)]
  rcases hf : m.find? (fun e => e.1 == h r.content) with _ | e
  · simp [hf]
  · by_cases hs : e.2.score < r.score
    · simp [hf, hs, dedupReplace, hne]
    · simp [hf, hs]

theorem dedupLookup_dedupStep (h : List Char → Int) (r : SearchResult) :
    ∀ (m : List (Int × SearchResult)) (k : Int),
      dedupLookup (dedupStep h m r) k =
        if h r.content = k then dedupPick (dedupLookup m k) r else dedupLookup m k
  | [], k => by
    rw [dedupStep_nil, dedupLookup_cons, dedupLookup_nil]
    by_cases hk : h r.content = k <;> simp [hk, dedupPick]
  | (k0, v0) :: m, k => by
    by_cases h0 : k0 = h r.content
    · subst h0
      rw [dedupStep_cons_self]
      by_cases hs : v0.score < r.score <;>
        by_cases hk : h r.content = k <;>
          simp [hs, hk, dedupLookup_cons, dedupPick]
    · rw [dedupStep_cons_ne h k0 v0 m r h0, dedupLookup_cons, dedupLookup_cons,
        dedupLookup_dedupStep h r m k]
      by_cases hk : k0 = k
      · have hk2 : ¬(h r.content = k) := fun hh => h0 (hk.trans hh.symm)
        simp [hk, hk2]
      · simp [hk]

theorem dedupLookup_mergeCandidates (h : List Char → Int) (k : Int) :
    ∀ (rs : List SearchResult) (m : List (Int × SearchResult)),
      dedupLookup (mergeCandidates h m rs) k =
        winnerAux (dedupLookup m k) (rs.filter (fun r => h r.content == k))
  | [], m => rfl
  | r :: rs, m => by
    have hstep : mergeCandidates h m (r :: rs) = mergeCandidates h (dedupStep h m r) rs := rfl
    rw [hstep, dedupLookup_mergeCandidates h k rs (dedupStep h m r),
      dedupLookup_dedupStep h r m k]
    by_cases hk : h r.content = k
    · simp [List.filter, hk, winnerAux]
    · have hk' : (h r.content == k) = false := by simpa using hk
      simp [List.filter, hk', if_neg hk]

/-- **C5** (confirmed): in the orchestrator's cross-variant merge, for
every sequence of search results, if exactly two results share a
content-identity key (`hash(result.content)`), with scores `s1` and
`s2` in encounter order: when `s1 < s2` the merged candidate set keeps
the one with score `s2`, and when the scores are equal it keeps the
first-seen candidate. -/
theorem c5_dedup_keeps_best (h : List Char → Int) (rs : List SearchResult) (k : Int)
    (r1 r2 : SearchResult) (hf : rs.filter (fun r => h r.content == k) = [r1, r2]) :
    (r1.score < r2.score → dedupLookup (mergeCandidates h [] rs) k = some r2) ∧
    (r1.score = r2.score → dedupLookup (mergeCandidates h [] rs) k = some r1) := by
  have hB := dedupLookup_mergeCandidates h k rs []
  rw [hf] at hB
  have hnone : dedupLookup [] k = none := rfl
  rw [hnone] at hB
  simp only [winnerAux, dedupPick] at hB
  constructor
  · intro hlt
    rw [hB, if_pos hlt]
  · intro heq
    rw [hB, if_neg (by rw [heq]; exact lt_irrefl _)]

/-- Witness for C5 at concrete inputs: two results with the same key and
scores `1 < 2` — the merge keeps the score-2 candidate. -/
theorem c5_dedup_keeps_best_witness :
    dedupLookup (mergeCandidates (fun _ => 0) []
        [⟨['a'], 1, 1, 0⟩, ⟨['a'], 2, 2, 0⟩]) 0 = some ⟨['a'], 2, 2, 0⟩ :=
  (c5_dedup_keeps_best (fun _ => 0) [⟨['a'], 1, 1, 0⟩, ⟨['a'], 2, 2, 0⟩] 0
      ⟨['a'], 1, 1, 0⟩ ⟨['a'], 2, 2, 0⟩ (by decide)).1 (by norm_num)

/-! ## Claim C2: RRF fusion scores and result order -/

theorem rrfLookup_nil (p : Nat) : rrfLookup [] p = none := rfl

theorem rrfLookup_cons (h' : QHit) (s : ℚ) (m : List (QHit × ℚ)) (p : Nat) :
    rrfLookup ((h', s) :: m) p = if h'.pid = p then some s else rrfLookup m p := by
  by_cases hx : h'.pid = p
  · rw [rrfLookup, List.find?_cons_of_pos _ (by simpa using hx), if_pos hx]
  · rw [rrfLookup, List.find?_cons_of_neg _ (by simpa using hx), if_neg hx]
    rfl

theorem rrfLookup_rrfUpdate (h : QHit) (d : ℚ) :
    ∀ (m : List (QHit × ℚ)) (p : Nat),
      rrfLookup (rrfUpdate m h d) p =
        if h.pid = p then some ((rrfLookup m p).getD 0 + d) else rrfLookup m p
  | [], p => by
    by_cases hp : h.pid = p <;>
      simp [rrfUpdate, rrfLookup_cons, rrfLookup_nil, hp]
  | (h', s) :: m, p => by
    by_cases he : h'.pid = h.pid
    · rw [rrfUpdate, if_pos he, rrfLookup_cons, rrfLookup_cons]
      by_cases hp : h'.pid = p
      · rw [if_pos hp, if_pos (he ▸ hp), if_pos hp]
        simp
      · rw [if_neg hp, if_neg hp, if_neg fun hc => hp (he.trans hc)]
    · rw [rrfUpdate, if_neg he, rrfLookup_cons, rrfLookup_cons,
        rrfLookup_rrfUpdate h d m p]
      by_cases hp : h'.pid = p
      · rw [if_pos hp, if_neg fun hc => he (hp.trans hc.symm), if_pos hp]
      · rw [if_neg hp, if_neg hp]

theorem rrfLookup_rrfAddFrom_not_mem (p : Nat) :
    ∀ (hits : List QHit) (m : List (QHit × ℚ)) (rank : Nat),
      p ∉ hits.map (·.pid) →
      rrfLookup (rrfAddFrom m rank hits) p = rrfLookup m p
  | [], m, rank, _ => rfl
  | h0 :: rest, m, rank, hnm => by
    have h0p : h0.pid ≠ p := fun hc => hnm (by simp [hc])
    have hrest : p ∉ rest.map (·.pid) := fun hc => hnm (by simp [hc])
    rw [rrfAddFrom, rrfLookup_rrfAddFrom_not_mem p rest _ _ hrest,
      rrfLookup_rrfUpdate, if_neg h0p]

theorem rrfLookup_rrfAddFrom_mem (p : Nat) :
    ∀ (hits : List QHit) (i : Nat) (hh : QHit) (m : List (QHit × ℚ)) (rank : Nat),
      hits.get? i = some hh → hh.pid = p → (hits.map (·.pid)).Nodup →
      rrfLookup (rrfAddFrom m rank hits) p =
        some ((rrfLookup m p).getD 0 + 1 / (60 + (rank : ℚ) + (i : ℚ) + 1))
  | [], i, hh, m, rank => by intro hget _ _; simp at hget
  | h0 :: rest, 0, hh, m, rank => by
    intro hget hpid hnd
    have hh0 : h0 = hh := by simpa using hget
    subst hh0
    rw [List.map_cons] at hnd
    have hnr : p ∉ rest.map (·.pid) := hpid ▸ (List.nodup_cons.mp hnd).1
    rw [rrfAddFrom, rrfLookup_rrfAddFrom_not_mem p rest _ _ hnr,
      rrfLookup_rrfUpdate, if_pos hpid]
    norm_num
  | h0 :: rest, i + 1, hh, m, rank => by
    intro hget hpid hnd
    rw [List.map_cons] at hnd
    have hpair := List.nodup_cons.mp hnd
    have hget' : rest.get? i = some hh := by simpa using hget
    have hmem : p ∈ rest.map (·.pid) := by
      rw [← hpid]
      exact List.mem_map_of_mem _ (List.get?_mem hget')
    have h0p : h0.pid ≠ p := fun hc => hpair.1 (hc ▸ hmem)
    rw [rrfAddFrom, rrfLookup_rrfAddFrom_mem p rest i hh _ (rank + 1) hget' hpid hpair.2,
      rrfLookup_rrfUpdate, if_neg h0p]
    congr 1
    push_cast
    ring

/-- The pids keyed by an RRF score map. -/
def rrfKeys (m : List (QHit × ℚ)) : List Nat := m.map (·.1.pid)

theorem rrfUpdate_of_not_mem (h : QHit) (d : ℚ) :
    ∀ (m : List (QHit × ℚ)), h.pid ∉ rrfKeys m → rrfUpdate m h d = m ++ [(h, d)]
  | [], _ => rfl
  | (h', s) :: m, hnm => by
    have h1 : h'.pid ≠ h.pid := fun hc => hnm (by simp [rrfKeys, hc])
    have h2 : h.pid ∉ rrfKeys m := fun hc => hnm (by simp [rrfKeys] at hc ⊢; exact .inr hc)
    rw [rrfUpdate, if_neg h1, rrfUpdate_of_not_mem h d m h2]
    rfl

theorem rrfKeys_rrfUpdate_of_mem (h : QHit) (d : ℚ) :
    ∀ (m : List (QHit × ℚ)), h.pid ∈ rrfKeys m → rrfKeys (rrfUpdate m h d) = rrfKeys m
  | [], hm => by simp [rrfKeys] at hm
  | (h', s) :: m, hm => by
    by_cases he : h'.pid = h.pid
    · rw [rrfUpdate, if_pos he]
      rfl
    · have hm' : h.pid ∈ rrfKeys m := by
        simp [rrfKeys] at hm
        rcases hm with hc | hc
        · exact absurd hc.symm he
        · simpa [rrfKeys] using hc
      rw [rrfUpdate, if_neg he]
      simp [rrfKeys] at hm' ⊢
      exact rrfKeys_rrfUpdate_of_mem h d m (by simpa [rrfKeys] using hm')

theorem rrfKeys_nodup_rrfUpdate (h : QHit) (d : ℚ) (m : List (QHit × ℚ))
    (hnd : (rrfKeys m).Nodup) : (rrfKeys (rrfUpdate m h d)).Nodup := by
  by_cases hm : h.pid ∈ rrfKeys m
  · rw [rrfKeys_rrfUpdate_of_mem h d m hm]; exact hnd
  · rw [rrfUpdate_of_not_mem h d m hm]
    simp only [rrfKeys, List.map_append]
    exact List.Nodup.append hnd (by simp) (by
      intro a ha hb
      simp [rrfKeys] at hb
      exact hm (hb ▸ ha))

theorem rrfKeys_nodup_rrfAddFrom :
    ∀ (hits : List QHit) (m : List (QHit × ℚ)) (rank : Nat),
      (rrfKeys m).Nodup → (rrfKeys (rrfAddFrom m rank hits)).Nodup
  | [], _, _, hnd => hnd
  | h0 :: rest, m, rank, hnd =>
    rrfKeys_nodup_rrfAddFrom rest _ (rank + 1) (rrfKeys_nodup_rrfUpdate h0 _ m hnd)

theorem rrfKeys_nodup_rrfMap (dense sparse : List QHit) :
    (rrfKeys (rrfMap dense sparse)).Nodup :=
  rrfKeys_nodup_rrfAddFrom sparse _ 0
    (rrfKeys_nodup_rrfAddFrom dense [] 0 (by simp [rrfKeys]))

theorem rrfLookup_of_mem :
    ∀ (m : List (QHit × ℚ)), (rrfKeys m).Nodup → ∀ e ∈ m, rrfLookup m e.1.pid = some e.2
  | [], _, e, he => absurd he (List.not_mem_nil _)
  | (h', s) :: m, hnd, e, he => by
    rcases List.mem_cons.mp he with he1 | he1
    · subst he1
      rw [rrfLookup_cons, if_pos rfl]
    · have hnd' : (h'.pid :: rrfKeys m).Nodup := hnd
      have hne : h'.pid ≠ e.1.pid := by
        intro hc
        exact (List.nodup_cons.mp hnd').1 (hc ▸ List.mem_map_of_mem _ he1)
      rw [rrfLookup_cons, if_neg hne]
      exact rrfLookup_of_mem m (List.nodup_cons.mp hnd').2 e he1

/-- **C2** (confirmed): in `_hybrid_search`, over any backend top-`2k`
sublists: a candidate at 0-based rank `r` in exactly one sublist gets
fused score exactly `1/(60+r+1)`; a candidate at ranks `r1`/`r2` in both
gets `1/(60+r1+1) + 1/(60+r2+1)`; the returned list's fused scores are
non-increasing, its entries carry exactly their fused scores, and it is
truncated to `limit`.  (Rank positions are made unambiguous by requiring
each sublist's point ids to be distinct, as backend result lists are.) -/
theorem c2_rrf_fusion (dense sparse : List QHit) (limit : Nat) (t : ℚ) :
    (∀ (r : Nat) (hh : QHit), dense.get? r = some hh →
        (dense.map (·.pid)).Nodup → hh.pid ∉ sparse.map (·.pid) →
        rrfLookup (rrfMap dense sparse) hh.pid = some (1 / (60 + (r : ℚ) + 1))) ∧
    (∀ (r : Nat) (hh : QHit), sparse.get? r = some hh →
        (sparse.map (·.pid)).Nodup → hh.pid ∉ dense.map (·.pid) →
        rrfLookup (rrfMap dense sparse) hh.pid = some (1 / (60 + (r : ℚ) + 1))) ∧
    (∀ (r1 r2 : Nat) (h1 h2 : QHit), dense.get? r1 = some h1 →
        sparse.get? r2 = some h2 → h2.pid = h1.pid →
        (dense.map (·.pid)).Nodup → (sparse.map (·.pid)).Nodup →
        rrfLookup (rrfMap dense sparse) h1.pid =
          some (1 / (60 + (r1 : ℚ) + 1) + 1 / (60 + (r2 : ℚ) + 1))) ∧
    ((hybrid_search dense sparse limit t).map (·.2)).Sorted (· ≥ ·) ∧
    (∀ e ∈ hybrid_search dense sparse limit t,
        rrfLookup (rrfMap dense sparse) e.1.pid = some e.2) ∧
    (hybrid_search dense sparse limit t).length = min limit (rrfMap dense sparse).length := by
  refine ⟨?_, ?_, ?_, ?_, ?_, ?_⟩
  · intro r hh hget hnd hnm
    rw [rrfMap, rrfLookup_rrfAddFrom_not_mem _ sparse _ 0 (by
        intro hc; exact hnm hc),
      rrfLookup_rrfAddFrom_mem hh.pid dense r hh [] 0 hget rfl hnd]
    simp only [rrfLookup_nil, Option.getD_none, zero_add]
    norm_num
  · intro r hh hget hnd hnm
    rw [rrfMap, rrfLookup_rrfAddFrom_mem hh.pid sparse r hh _ 0 hget rfl hnd,
      rrfLookup_rrfAddFrom_not_mem _ dense [] 0 (by intro hc; exact hnm hc)]
    simp only [rrfLookup_nil, Option.getD_none, zero_add]
    norm_num
  · intro r1 r2 h1 h2 hget1 hget2 hpid hnd1 hnd2
    rw [rrfMap, rrfLookup_rrfAddFrom_mem h1.pid sparse r2 h2 _ 0 hget2 hpid hnd2,
      rrfLookup_rrfAddFrom_mem h1.pid dense r1 h1 [] 0 hget1 rfl hnd1]
    simp only [rrfLookup_nil, Option.getD_none, Option.getD_some, zero_add]
    congr 1
    push_cast
    ring
  · have hs := @List.sorted_mergeSort (QHit × ℚ)
      (fun a b : QHit × ℚ => decide (b.2 ≤ a.2))
      (fun a b c hab hbc => by
        simp only [decide_eq_true_eq] at *
        exact le_trans hbc hab)
      (fun a b => by
        simp only [Bool.or_eq_true, decide_eq_true_eq]
        exact le_total b.2 a.2)
      (rrfMap dense sparse)
    have hp : (hybrid_search dense sparse limit t).Pairwise
        (fun a b : QHit × ℚ => b.2 ≤ a.2) := by
      refine List.Pairwise.sublist (List.take_sublist _ _) ?_
      exact hs.imp (by simp only [decide_eq_true_eq]; exact fun h => h)
    rw [List.Sorted, List.pairwise_map]
    exact hp.imp fun h => h
  · intro e he
    have he' : e ∈ rrfMap dense sparse := by
      have h1 : e ∈ (rrfMap dense sparse).mergeSort
          (fun a b : QHit × ℚ => decide (b.2 ≤ a.2)) :=
        (List.take_subset _ _) he
      exact List.mem_mergeSort.mp h1
    exact rrfLookup_of_mem _ (rrfKeys_nodup_rrfMap dense sparse) e he'
  · rw [hybrid_search, List.length_take, List.length_mergeSort]

/-- Witness for C2 at concrete inputs: candidate 1 only in the dense list
(rank 0), candidate 2 in both (ranks 1 and 0). -/
theorem c2_rrf_fusion_witness :
    rrfLookup (rrfMap [⟨1, ['a']⟩, ⟨2, ['b']⟩] [⟨2, ['b']⟩]) 1 = some (1 / 61) ∧
    rrfLookup (rrfMap [⟨1, ['a']⟩, ⟨2, ['b']⟩] [⟨2, ['b']⟩]) 2 = some (1 / 62 + 1 / 61) := by
  constructor
  · have h := (c2_rrf_fusion [⟨1, ['a']⟩, ⟨2, ['b']⟩] [⟨2, ['b']⟩] 5 0).1 0 ⟨1, ['a']⟩
      rfl (by decide) (by decide)
    rw [h]
    norm_num
  · have h := (c2_rrf_fusion [⟨1, ['a']⟩, ⟨2, ['b']⟩] [⟨2, ['b']⟩] 5 0).2.2.1 1 0
      ⟨2, ['b']⟩ ⟨2, ['b']⟩ rfl rfl rfl (by decide) (by decide)
    rw [h]
    norm_num

/-! ## Claim C6: dense-mode score semantics -/

theorem distance_to_similarity_nonneg (d : ℚ) : 0 ≤ distance_to_similarity d :=
  le_max_left 0 _

theorem distance_to_similarity_le_one (d : ℚ) : distance_to_similarity d ≤ 1 :=
  max_le (by norm_num) (min_le_left 1 _)

theorem distance_to_similarity_antitone {d1 d2 : ℚ} (h : d1 ≤ d2) :
    distance_to_similarity d2 ≤ distance_to_similarity d1 :=
  max_le_max (le_refl 0) (min_le_min (le_refl 1) (by
    have : d1 / 2 ≤ d2 / 2 := by linarith
    linarith))

theorem lancedb_search_some {it : LanceItem} {r : SearchResult} {t : ℚ}
    (h : (if distance_to_similarity it.distance < t then none
      else some (⟨it.content, distance_to_similarity it.distance,
        it.document_id, it.chunk_index⟩ : SearchResult)) = some r) :
    r.score = distance_to_similarity it.distance ∧ ¬(r.score < t) := by
  by_cases hc : distance_to_similarity it.distance < t
  · rw [if_pos hc] at h
    exact absurd h (by simp)
  · rw [if_neg hc] at h
    have := Option.some.inj h
    constructor
    · rw [← this]
    · rw [← this]
      exact hc

/-- **C6** (amended, LanceDB backend): over any backend response, every
returned score lies in `[0,1]`, equals `1 - d/2` clamped to `[0,1]` for
the row's reported distance `d` (with the clamp a no-op for `d ∈ [0,2]`),
rows scoring below `score_threshold` are excluded, and if the backend
returns rows by non-decreasing distance the scores are non-increasing. -/
theorem c6_dense_scores_amended (items : List LanceItem) (t : ℚ) :
    (∀ r ∈ lancedb_search items t,
        (0 ≤ r.score ∧ r.score ≤ 1) ∧ ¬(r.score < t) ∧
        ∃ it ∈ items, r.score = distance_to_similarity it.distance) ∧
    ((items.map (·.distance)).Sorted (· ≤ ·) →
        ((lancedb_search items t).map (·.score)).Sorted (· ≥ ·)) ∧
    (∀ d : ℚ, 0 ≤ d → d ≤ 2 → distance_to_similarity d = 1 - d / 2) := by
  refine ⟨?_, ?_, ?_⟩
  · intro r hr
    rcases List.mem_filterMap.mp hr with ⟨it, hit, hf⟩
    rcases lancedb_search_some hf with ⟨hscore, hthr⟩
    exact ⟨⟨hscore ▸ distance_to_similarity_nonneg _,
        hscore ▸ distance_to_similarity_le_one _⟩, hthr, it, hit, hscore⟩
  · intro hsorted
    rw [List.Sorted, List.pairwise_map]
    refine List.Pairwise.filterMap _ ?_ (List.pairwise_map.mp hsorted)
    intro a a' hle b hb b' hb'
    rcases lancedb_search_some hb with ⟨hs, _⟩
    rcases lancedb_search_some hb' with ⟨hs', _⟩
    rw [hs, hs']
    exact distance_to_similarity_antitone hle
  · intro d h0 h2
    rw [distance_to_similarity, min_eq_right (by linarith), max_eq_right (by linarith)]

/-- Witness for the amended C6 at a concrete one-row response. -/
theorem c6_dense_scores_amended_witness :
    (([⟨0, ['x'], 1, 0⟩] : List LanceItem).map (·.distance)).Sorted (· ≤ ·) ∧
    ((lancedb_search [⟨0, ['x'], 1, 0⟩] 0).map (·.score)).Sorted (· ≥ ·) ∧
    distance_to_similarity 1 = 1 - 1 / 2 :=
  ⟨by simp, (c6_dense_scores_amended [⟨0, ['x'], 1, 0⟩] 0).2.1 (by simp),
   (c6_dense_scores_amended [] 0).2.2 1 (by norm_num) (by norm_num)⟩

/-- **C6** (counterexample): the Qdrant dense path violates the claim as
stated: `_dense_search` passes backend scores through unmodified and,
with `score_threshold = 0`, forwards no threshold at all — so a backend
cosine similarity of `-1/5` (legal for cosine) is returned as a score
outside `[0,1]` and is not excluded despite being below the threshold. -/
theorem c6_qdrant_passthrough_counterexample :
    qdrantThresholdParam 0 = none ∧
    dense_search [⟨1, ['x'], -(1/5)⟩] = [(⟨1, ['x'], -(1/5)⟩, -(1/5))] ∧
    ¬((0 : ℚ) ≤ -(1/5)) := by
  refine ⟨?_, rfl, by norm_num⟩
  rw [qdrantThresholdParam, if_neg (by norm_num)]

/-! ## Claim C10: `RerankerService.rerank` never mutates its input -/

theorem rerank_fallback (store : List PyDict) (candidates : List Nat)
    (ml : Bool) (ps : Option (List ℚ)) (top_k : Nat)
    (h : ml = false ∨ ps = none ∨ candidates = []) :
    rerank store candidates ml ps top_k = (candidates.take top_k, store) := by
  rcases h with h | h | h
  · subst h; rw [rerank.eq_def, if_pos (by simp)]
  · subst h
    rw [rerank.eq_def]
    by_cases hc : (!ml || candidates.isEmpty) = true
    · rw [if_pos hc]
    · rw [if_neg hc]
  · subst h; rw [rerank.eq_def, if_pos (by simp)]

theorem rerank_success (store : List PyDict) (candidates : List Nat)
    (scores : List ℚ) (top_k : Nat) (hne : candidates ≠ []) :
    rerank store candidates true (some scores) top_k =
      (((List.range' store.length (candidates.zip scores).length).mergeSort fun a b =>
          decide (getQD ((store ++ (candidates.zip scores).map fun p =>
              setKey (store.getD p.1 []) rerankKey (PyVal.q p.2)).getD b []) rerankKey ≤
            getQD ((store ++ (candidates.zip scores).map fun p =>
              setKey (store.getD p.1 []) rerankKey (PyVal.q p.2)).getD a []) rerankKey)).take top_k,
        store ++ (candidates.zip scores).map fun p =>
          setKey (store.getD p.1 []) rerankKey (PyVal.q p.2)) := by
  rw [rerank.eq_def, if_neg (by simp [List.isEmpty_iff, hne])]
  simp only [List.length_map]

/-- **C10** (confirmed): `RerankerService.rerank` never mutates its input:
every dictionary reachable from the input (all of `store`) is unchanged
after the call; on the fallback paths (model unavailable, empty candidate
list, or the cross-encoder raising) the result is exactly
`candidates[:top_k]` — the original references with nothing allocated or
added; on success every returned reference is a freshly allocated copy of
some zipped input candidate with `rerank_score` attached, and the result
has length `min top_k (len (zip candidates scores))`. -/
theorem c10_rerank_no_mutation (store : List PyDict) (candidates : List Nat)
    (ml : Bool) (ps : Option (List ℚ)) (top_k : Nat) :
    (∀ i, i < store.length →
        (rerank store candidates ml ps top_k).2.get? i = store.get? i) ∧
    ((ml = false ∨ ps = none ∨ candidates = []) →
        rerank store candidates ml ps top_k = (candidates.take top_k, store)) ∧
    (∀ scores, ps = some scores → ml = true → candidates ≠ [] →
        ∀ j ∈ (rerank store candidates ml ps top_k).1,
          store.length ≤ j ∧
          ∃ p ∈ candidates.zip scores,
            (rerank store candidates ml ps top_k).2.getD j [] =
              setKey (store.getD p.1 []) rerankKey (PyVal.q p.2)) ∧
    (∀ scores, ps = some scores → ml = true → candidates ≠ [] →
        (rerank store candidates ml ps top_k).1.length =
          min top_k (candidates.zip scores).length) := by
  refine ⟨?_, rerank_fallback store candidates ml ps top_k, ?_, ?_⟩
  · intro i hi
    by_cases hml : ml = true
    · rcases ps with _ | scores
      · rw [rerank_fallback store candidates ml none top_k (.inr (.inl rfl))]
      · by_cases hne : candidates = []
        · rw [rerank_fallback store candidates ml (some scores) top_k (.inr (.inr hne))]
        · subst hml
          rw [rerank_success store candidates scores top_k hne]
          exact List.get?_append hi
    · rw [rerank_fallback store candidates ml ps top_k
        (.inl (Bool.not_eq_true ml ▸ hml))]
  · intro scores hps hml hne j hj
    subst hps; subst hml
    rw [rerank_success store candidates scores top_k hne] at hj ⊢
    simp only at hj
    have hj1 : j ∈ (List.range' store.length (candidates.zip scores).length) := by
      have := (List.take_subset _ _) hj
      exact List.mem_mergeSort.mp this
    rw [List.mem_range'_1] at hj1
    refine ⟨hj1.1, ?_⟩
    have hlt : j - store.length < (candidates.zip scores).length := by omega
    rcases List.get?_eq_some.mpr ⟨(by simpa using hlt :
        j - store.length < ((candidates.zip scores).map fun p =>
          setKey (store.getD p.1 []) rerankKey (PyVal.q p.2)).length), rfl⟩ with _
    have hget : ((candidates.zip scores).map fun p =>
        setKey (store.getD p.1 []) rerankKey (PyVal.q p.2)).get? (j - store.length) =
        ((candidates.zip scores).get? (j - store.length)).map fun p =>
          setKey (store.getD p.1 []) rerankKey (PyVal.q p.2) := by
      rw [List.get?_map]
    rcases hp : (candidates.zip scores).get? (j - store.length) with _ | p
    · exact absurd hp (by rw [List.get?_eq_none] at hp ⊢ <;> omega)
    · refine ⟨p, List.get?_mem hp, ?_⟩
      rw [List.getD_eq_get?, List.get?_append_right hj1.1, hget, hp]
      rfl
  · intro scores hps hml hne
    subst hps; subst hml
    rw [rerank_success store candidates scores top_k hne]
    simp only [List.length_take, List.length_mergeSort, List.length_range']

/-- Witness for C10 at concrete inputs: one stored dict, one candidate,
one score. -/
theorem c10_rerank_no_mutation_witness :
    (0 : Nat) < ([ [(['k'], PyVal.i 1)] ] : List PyDict).length ∧
    (rerank [ [(['k'], PyVal.i 1)] ] [0] true (some [2]) 1).2.get? 0 =
      some [(['k'], PyVal.i 1)] :=
  ⟨by simp,
    by
      rw [(c10_rerank_no_mutation [ [(['k'], PyVal.i 1)] ] [0] true (some [2]) 1).1 0
        (by simp)]
      rfl⟩

/-! ## Claim C9: `has_header` and section metadata -/

/-- Modelled from the spec: "the chunk begins with a markdown-style
heading line" — the heading shape (`#{1,6}` then whitespace) holds at
position 0 of the chunk. -/
def beginsWithHeadingLine (chunk : List Char) : Bool := headingAt chunk

theorem multilineAnyAux_iff (p : List Char → Bool) :
    ∀ l : List Char,
      multilineAnyAux p l = true ↔ ∃ u v, l = u ++ '\n' :: v ∧ p v = true
  | [] => by
    constructor
    · intro h; exact absurd h (by simp [multilineAnyAux])
    · rintro ⟨u, v, he, -⟩
      exact absurd he (by cases u <;> simp)
  | c :: rest => by
    constructor
    · intro h
      have h' : (c = '\n' ∧ p rest = true) ∨ multilineAnyAux p rest = true := by
        simpa [multilineAnyAux] using h
      rcases h' with ⟨hc, hp⟩ | h1
      · exact ⟨[], rest, by simp [hc], hp⟩
      · rcases (multilineAnyAux_iff p rest).mp h1 with ⟨u, v, he, hp⟩
        exact ⟨c :: u, v, by rw [List.cons_append, he], hp⟩
    · rintro ⟨u, v, he, hp⟩
      cases u with
      | nil =>
        rcases List.cons.inj he with ⟨hc, hr⟩
        subst hc; subst hr
        simp [multilineAnyAux, hp]
      | cons a u =>
        rcases List.cons.inj he with ⟨hc, hr⟩
        subst hc
        have : multilineAnyAux p rest = true :=
          (multilineAnyAux_iff p rest).mpr ⟨u, v, hr, hp⟩
        simp [multilineAnyAux, this]

theorem multilineAny_iff (p : List Char → Bool) (l : List Char) :
    multilineAny p l = true ↔
      ∃ u v, l = u ++ v ∧ (u = [] ∨ ∃ u', u = u' ++ ['\n']) ∧ p v = true := by
  constructor
  · intro h
    have h' : p l = true ∨ multilineAnyAux p l = true := by
      simpa [multilineAny] using h
    rcases h' with h1 | h1
    · exact ⟨[], l, rfl, .inl rfl, h1⟩
    · rcases (multilineAnyAux_iff p l).mp h1 with ⟨u, v, he, hp⟩
      exact ⟨u ++ ['\n'], v, by simp [he], .inr ⟨u, rfl⟩, hp⟩
  · rintro ⟨u, v, he, hu | ⟨u', hu⟩, hp⟩
    · subst hu
      simp only [List.nil_append] at he
      subst he
      simp [multilineAny, hp]
    · subst hu
      have : multilineAnyAux p l = true :=
        (multilineAnyAux_iff p l).mpr ⟨u', v, by simp [he], hp⟩
      simp [multilineAny, this]

theorem pySpace_ne_hash {c : Char} (h : isPySpace c = true) : ¬(c = '#') := by
  intro hc
  subst hc
  exact absurd h (by decide)

theorem takeWhile_hash_of_replicate (n : Nat) (c : Char) (v : List Char)
    (hc : ¬(c = '#')) :
    (List.replicate n '#' ++ c :: v).takeWhile (· == '#') = List.replicate n '#' := by
  rw [List.takeWhile_append_of_pos (by
    intro a ha
    rw [List.eq_of_mem_replicate ha]
    rfl)]
  have : ((c == '#') : Bool) = false := by simpa using hc
  simp [List.takeWhile_cons, this]

theorem headingAt_iff (l : List Char) :
    headingAt l = true ↔
      ∃ n c v, l = List.replicate n '#' ++ c :: v ∧
        1 ≤ n ∧ n ≤ 6 ∧ isPySpace c = true := by
  constructor
  · intro h
    simp only [headingAt] at h
    rw [Bool.and_eq_true, Bool.and_eq_true] at h
    obtain ⟨⟨h1, h2⟩, h3⟩ := h
    have hn1 : 1 ≤ (l.takeWhile (· == '#')).length := of_decide_eq_true h1
    have hn2 : (l.takeWhile (· == '#')).length ≤ 6 := of_decide_eq_true h2
    have hrep : l.takeWhile (· == '#') =
        List.replicate (l.takeWhile (· == '#')).length '#' := by
      rw [List.eq_replicate_iff]
      exact ⟨rfl, fun b hb => beq_iff_eq.mp (List.mem_takeWhile_imp (p := (· == '#')) hb)⟩
    have hsplit : l = l.takeWhile (· == '#') ++ l.drop (l.takeWhile (· == '#')).length := by
      conv_lhs => rw [← List.take_append_drop (l.takeWhile (· == '#')).length l]
      rw [← List.prefix_iff_eq_take.mp (List.takeWhile_prefix _)]
    rcases hd : l.drop (l.takeWhile (· == '#')).length with _ | ⟨c, v⟩
    · rw [hd] at h3; exact absurd h3 (by simp)
    · rw [hd] at h3
      refine ⟨(l.takeWhile (· == '#')).length, c, v, ?_, hn1, hn2, by simpa using h3⟩
      rw [← hrep, ← hd]
      exact hsplit
  · rintro ⟨n, c, v, he, hn1, hn2, hc⟩
    subst he
    have hrun : ((List.replicate n '#' ++ c :: v).takeWhile (· == '#')) =
        List.replicate n '#' :=
      takeWhile_hash_of_replicate n c v (pySpace_ne_hash hc)
    have hlen : ((List.replicate n '#' ++ c :: v).takeWhile (· == '#')).length = n := by
      rw [hrun, List.length_replicate]
    rw [headingAt]
    simp only [hlen]
    rw [List.drop_left' (by rw [List.length_replicate])]
    simp [hn1, hn2, hc]

theorem lazyTitle_isSome_iff (u : List Char) :
    (lazyTitle u).isSome ↔ ∃ c w, u = c :: w ∧ ¬(c = '\n') := by
  cases u with
  | nil => simp [lazyTitle]
  | cons c w =>
    by_cases hc : c = '\n'
    · subst hc
      simp [lazyTitle, List.takeWhile_cons]
    · have hb : ((c != '\n') : Bool) = true := by simpa using hc
      simp [lazyTitle, List.takeWhile_cons, hb, hc]

theorem wsBacktrack_isSome_iff (r : List Char) :
    ∀ n : Nat, (wsBacktrack r n).isSome ↔
      ∃ j, 1 ≤ j ∧ j ≤ n ∧ (lazyTitle (r.drop j)).isSome
  | 0 => by
    constructor
    · intro h; exact absurd h (by simp [wsBacktrack])
    · rintro ⟨j, h1, h2, -⟩; omega
  | n + 1 => by
    rw [wsBacktrack]
    rcases hl : lazyTitle (r.drop (n + 1)) with _ | t
    · rw [wsBacktrack_isSome_iff r n]
      constructor
      · rintro ⟨j, h1, h2, h3⟩
        exact ⟨j, h1, Nat.le_succ_of_le h2, h3⟩
      · rintro ⟨j, h1, h2, h3⟩
        by_cases hj : j = n + 1
        · subst hj
          rw [hl] at h3
          exact absurd h3 (by simp)
        · exact ⟨j, h1, by omega, h3⟩
    · constructor
      · intro _
        exact ⟨n + 1, by omega, Nat.le_refl _, by rw [hl]; rfl⟩
      · intro _; rfl

theorem mem_take_of_le_takeWhile {p : Char → Bool} :
    ∀ (l : List Char) (j : Nat), j ≤ (l.takeWhile p).length →
      ∀ x ∈ l.take j, p x = true
  | _, 0, _, x, hx => by simp at hx
  | [], _, _, x, hx => by simp at hx
  | a :: l, j + 1, hj, x, hx => by
    rcases hpa : p a with _ | _
    · rw [List.takeWhile_cons, hpa] at hj
      exact absurd hj (by simp)
    · rw [List.takeWhile_cons, hpa] at hj
      simp only [if_true, List.length_cons, Nat.add_le_add_iff_right] at hj
      rw [List.take_succ_cons] at hx
      rcases List.mem_cons.mp hx with hx1 | hx1
      · rw [hx1]; exact hpa
      · exact mem_take_of_le_takeWhile l j hj x hx1

theorem wsTitle_isSome_iff (r : List Char) :
    (wsTitle r).isSome ↔
      ∃ w t rr, r = w ++ t ++ rr ∧ w ≠ [] ∧ (∀ c ∈ w, isPySpace c = true) ∧
        t ≠ [] ∧ (∀ c ∈ t, ¬(c = '\n')) ∧ (rr = [] ∨ rr.head? = some '\n') := by
  rw [wsTitle, wsBacktrack_isSome_iff]
  constructor
  · rintro ⟨j, hj1, hj2, hj3⟩
    rcases (lazyTitle_isSome_iff _).mp hj3 with ⟨c, w', hdrop, hc⟩
    have hjlt : j < r.length := by
      by_contra hge
      push_neg at hge
      rw [List.drop_eq_nil_of_le hge] at hdrop
      exact absurd hdrop (by simp)
    refine ⟨r.take j, (r.drop j).takeWhile (· != '\n'),
      (r.drop j).dropWhile (· != '\n'), ?_, ?_, ?_, ?_, ?_, ?_⟩
    · rw [List.append_assoc, List.takeWhile_append_dropWhile, List.take_append_drop]
    · intro hnil
      rcases List.take_eq_nil_iff.mp hnil with h0 | h0
      · omega
      · rw [h0] at hjlt; simp at hjlt
    · exact fun x hx => mem_take_of_le_takeWhile r j hj2 x hx
    · rw [hdrop, List.takeWhile_cons]
      have hb : ((c != '\n') : Bool) = true := by simpa using hc
      simp [hb]
    · intro x hx
      have := List.mem_takeWhile_imp (p := (· != '\n')) hx
      simpa using this
    · have hmatch := List.head?_dropWhile_not (· != '\n') (r.drop j)
      rcases hh : ((r.drop j).dropWhile (· != '\n')).head? with _ | x
      · exact .inl (List.head?_eq_none_iff.mp hh)
      · right
        rw [hh] at hmatch
        have hx : x = '\n' := by simpa using hmatch
        rw [hx]
  · rintro ⟨w, t, rr, hre, hw, hws, ht, htn, hrr⟩
    refine ⟨w.length, ?_, ?_, ?_⟩
    · rcases w with _ | ⟨w0, w'⟩
      · exact absurd rfl hw
      · simp
    · rw [hre, List.append_assoc, List.takeWhile_append_of_pos hws, List.length_append]
      exact Nat.le_add_right _ _
    · rw [hre, List.append_assoc, List.drop_left]
      rcases t with _ | ⟨t0, t'⟩
      · exact absurd rfl ht
      · exact (lazyTitle_isSome_iff _).mpr ⟨t0, t' ++ rr, by simp, htn t0 (by simp)⟩

theorem replicate_decomp_assoc (n : Nat) (w t rr : List Char) :
    List.replicate n '#' ++ (w ++ t ++ rr) = List.replicate n '#' ++ w ++ t ++ rr := by
  simp [List.append_assoc]

/-- The anchored-header decomposition matched by
`re.match(r'^(#{1,6})\s+(.+?)(?:\n|$)', chunk)`: one to six `'#'`, a
non-empty whitespace run, a non-empty newline-free title, and then a
newline or the end of the chunk. -/
def AnchoredHeader (chunk : List Char) : Prop :=
  ∃ n w t rr, chunk = List.replicate n '#' ++ w ++ t ++ rr ∧ 1 ≤ n ∧ n ≤ 6 ∧
    w ≠ [] ∧ (∀ c ∈ w, isPySpace c = true) ∧ t ≠ [] ∧ (∀ c ∈ t, ¬(c = '\n')) ∧
    (rr = [] ∨ rr.head? = some '\n')

theorem headerMatch_isSome_iff (chunk : List Char) :
    (headerMatch chunk).isSome ↔ AnchoredHeader chunk := by
  constructor
  · intro h
    rw [headerMatch] at h
    by_cases hcond : 1 ≤ (chunk.takeWhile (· == '#')).length ∧
        (chunk.takeWhile (· == '#')).length ≤ 6
    · rw [if_pos hcond] at h
      rcases hws : wsTitle (chunk.drop (chunk.takeWhile (· == '#')).length) with _ | t
      · rw [hws] at h; exact absurd h (by simp)
      · have hsome : (wsTitle (chunk.drop (chunk.takeWhile (· == '#')).length)).isSome := by
          rw [hws]; rfl
        rcases (wsTitle_isSome_iff _).mp hsome with ⟨w, tt, rr, hdec, hw, hwsp, ht, htn, hrr⟩
        have hrep : chunk.takeWhile (· == '#') =
            List.replicate (chunk.takeWhile (· == '#')).length '#' := by
          rw [List.eq_replicate_iff]
          exact ⟨rfl, fun b hb => beq_iff_eq.mp (List.mem_takeWhile_imp (p := (· == '#')) hb)⟩
        have hsplit : chunk = chunk.takeWhile (· == '#') ++
            chunk.drop (chunk.takeWhile (· == '#')).length := by
          conv_lhs => rw [← List.take_append_drop (chunk.takeWhile (· == '#')).length chunk]
          rw [← List.prefix_iff_eq_take.mp (List.takeWhile_prefix _)]
        refine ⟨(chunk.takeWhile (· == '#')).length, w, tt, rr, ?_, hcond.1, hcond.2,
          hw, hwsp, ht, htn, hrr⟩
        rw [← replicate_decomp_assoc, ← hdec, ← hrep]
        exact hsplit
    · rw [if_neg hcond] at h
      exact absurd h (by simp)
  · rintro ⟨n, w, t, rr, hdec, hn1, hn6, hw, hwsp, ht, htn, hrr⟩
    rcases w with _ | ⟨w0, w'⟩
    · exact absurd rfl hw
    · have hrun : chunk.takeWhile (· == '#') = List.replicate n '#' := by
        rw [hdec]
        have : List.replicate n '#' ++ (w0 :: w') ++ t ++ rr =
            List.replicate n '#' ++ (w0 :: (w' ++ t ++ rr)) := by simp
        rw [this]
        exact takeWhile_hash_of_replicate n w0 _
          (pySpace_ne_hash (hwsp w0 (by simp)))
      have hlen : (chunk.takeWhile (· == '#')).length = n := by
        rw [hrun, List.length_replicate]
      rw [headerMatch, hlen, if_pos ⟨hn1, hn6⟩]
      have hdrop : chunk.drop n = (w0 :: w') ++ t ++ rr := by
        have h2 : chunk = List.replicate n '#' ++ ((w0 :: w') ++ t ++ rr) := by
          rw [hdec]
          simp [List.append_assoc]
        rw [h2, List.drop_left' (by rw [List.length_replicate])]
      have hsome : (wsTitle (chunk.drop n)).isSome := by
        rw [hdrop]
        exact (wsTitle_isSome_iff _).mpr ⟨w0 :: w', t, rr, rfl, by simp, hwsp, ht, htn, hrr⟩
      rcases hws : wsTitle (chunk.drop n) with _ | tt
      · rw [hws] at hsome; exact absurd hsome (by simp)
      · rfl

/-- **C9** (counterexample): `has_header` is computed with a MULTILINE
regex, so a chunk whose *second* line is a heading has `has_header =
true` although it does not begin with a markdown-style heading line —
and in that case `section_level` is not set. -/
theorem c9_has_header_counterexample :
    (extract_chunk_metadata ['a', 'b', 'c', '\n', '#', ' ', 'T'] 0).has_header = true ∧
    beginsWithHeadingLine ['a', 'b', 'c', '\n', '#', ' ', 'T'] = false ∧
    (extract_chunk_metadata ['a', 'b', 'c', '\n', '#', ' ', 'T'] 0).section_level = none := by
  refine ⟨?_, ?_, ?_⟩ <;> decide

/-- **C9** (amended): `has_header` is true exactly when *some* line of
the chunk (not necessarily the first) starts with one to six `'#'` marks
followed by a whitespace character; `section_level`/`section_title` are
set exactly when the chunk itself begins with the anchored header match
(hashes, whitespace, non-empty newline-free title), and then
`section_level` is the length of the chunk's leading `'#'` run (between
one and six) and `section_title` the matched title stripped of
surrounding whitespace. -/
theorem c9_header_metadata_amended (chunk : List Char) (idx : Nat) :
    ((extract_chunk_metadata chunk idx).has_header = true ↔
      ∃ u n c v, chunk = u ++ (List.replicate n '#' ++ c :: v) ∧
        (u = [] ∨ ∃ u', u = u' ++ ['\n']) ∧ 1 ≤ n ∧ n ≤ 6 ∧ isPySpace c = true) ∧
    ((extract_chunk_metadata chunk idx).section_level.isSome ↔ AnchoredHeader chunk) ∧
    (∀ n t, headerMatch chunk = some (n, t) →
      (extract_chunk_metadata chunk idx).section_level = some n ∧
      (extract_chunk_metadata chunk idx).section_title = some (pyStrip t) ∧
      n = (chunk.takeWhile (· == '#')).length ∧ 1 ≤ n ∧ n ≤ 6) := by
  refine ⟨?_, ?_, ?_⟩
  · have hfield : (extract_chunk_metadata chunk idx).has_header = hasHeaderRe chunk := rfl
    rw [hfield, hasHeaderRe, multilineAny_iff]
    constructor
    · rintro ⟨u, v, he, hu, hp⟩
      rcases (headingAt_iff v).mp hp with ⟨n, c, v', hv, hn1, hn6, hc⟩
      exact ⟨u, n, c, v', by rw [he, hv], hu, hn1, hn6, hc⟩
    · rintro ⟨u, n, c, v, he, hu, hn1, hn6, hc⟩
      exact ⟨u, List.replicate n '#' ++ c :: v, he, hu,
        (headingAt_iff _).mpr ⟨n, c, v, rfl, hn1, hn6, hc⟩⟩
  · have hfield : (extract_chunk_metadata chunk idx).section_level =
        (headerMatch chunk).map (·.1) := rfl
    rw [hfield, ← headerMatch_isSome_iff]
    rcases headerMatch chunk with _ | nt <;> simp
  · intro n t hm
    have hl : (extract_chunk_metadata chunk idx).section_level =
        (headerMatch chunk).map (·.1) := rfl
    have htt : (extract_chunk_metadata chunk idx).section_title =
        (headerMatch chunk).map (fun p => pyStrip p.2) := rfl
    refine ⟨by rw [hl, hm]; rfl, by rw [htt, hm]; rfl, ?_⟩
    rw [headerMatch] at hm
    by_cases hcond : 1 ≤ (chunk.takeWhile (· == '#')).length ∧
        (chunk.takeWhile (· == '#')).length ≤ 6
    · rw [if_pos hcond] at hm
      rcases hws : wsTitle (chunk.drop (chunk.takeWhile (· == '#')).length) with _ | tt
      · rw [hws] at hm; exact absurd hm (by simp)
      · rw [hws] at hm
        have := (Option.some.inj hm)
        have hn : n = (chunk.takeWhile (· == '#')).length := (Prod.mk.injEq _ _ _ _ ▸ this).1.symm
        exact ⟨hn, hn ▸ hcond.1, hn ▸ hcond.2⟩
    · rw [if_neg hcond] at hm
      exact absurd hm (by simp)

/-- Witness for the amended C9: the chunk `"# T"` begins with an anchored
header; its metadata carries level 1 and title `"T"`. -/
theorem c9_header_metadata_amended_witness :
    (extract_chunk_metadata ['#', ' ', 'T'] 0).section_level = some 1 ∧
    (extract_chunk_metadata ['#', ' ', 'T'] 0).section_title = some ['T'] := by
  have h := (c9_header_metadata_amended ['#', ' ', 'T'] 0).2.2 1 ['T'] (by decide)
  exact ⟨h.1, by rw [h.2.1]; decide⟩

/-! ## Claim C3: tables are never split across two chunks -/

/-- First row of the failing table: `"|" + "a"*58 + "|"` (60 chars). -/
def bugRow1 : List Char := '|' :: (List.replicate 58 'a' ++ ['|'])

/-- Second row of the failing table: `"|" + "b"*58 + "|"` (60 chars). -/
def bugRow2 : List Char := '|' :: (List.replicate 58 'b' ++ ['|'])

/-- Failing input for C3: a two-row table directly followed by a
`"## "` section heading. -/
def bugText : List Char :=
  bugRow1 ++ '\n' :: (bugRow2 ++ '\n' :: ['#', '#', ' ', 'x', 'x', 'x', 'x', 'x', 'x', 'x', 'x'])

set_option maxRecDepth 8000 in
/-- **C3** (code bug): on `bugText` with `max_size = 50`, the table
pattern matches the full two-row block, yet `chunk_text` emits the two
rows in two *different* chunks: the section split consumes the `'\n'`
before `"## "`, so inside the subsection the second row is unterminated
and falls outside the regex match; it is then re-classified as a
standalone table part, and the `1.5 × max_size` budget check flushes the
first row into its own chunk.  This contradicts the function's own
docstring ("Keep tables intact (don't split mid-table)"). -/
theorem c3_table_split_code_bug :
    tableBlocks bugText = [bugRow1 ++ '\n' :: (bugRow2 ++ ['\n'])] ∧
    chunk_text bugText 50 0 = [bugRow1, bugRow2] ∧
    ∀ c ∈ chunk_text bugText 50 0,
      ¬(bugRow1 ++ '\n' :: (bugRow2 ++ ['\n'])) <:+: c := by
  refine ⟨by decide, by decide, ?_⟩
  intro c hc hinf
  have hlen := hinf.length_le
  rw [(by decide : chunk_text bugText 50 0 = [bugRow1, bugRow2])] at hc
  rcases List.mem_cons.mp hc with h | h
  · subst h
    revert hlen
    decide
  · have h' : c = bugRow2 := by simpa using h
    subst h'
    revert hlen
    decide

/-! ## Claim C4: chunk length bound -/

set_option maxRecDepth 8000 in
/-- **C4** (counterexample): a single 70-character paragraph with
`max_size = 40` passes through `chunk_text` unsplit, emitting a chunk of
length 70 > 1.5 × 40 = 60. -/
theorem c4_oversize_chunk_counterexample :
    List.replicate 70 'a' ∈ chunk_text (List.replicate 70 'a') 40 0 ∧
    ¬(2 * (List.replicate 70 'a').length ≤ 3 * 40) := by
  exact ⟨by decide, by decide⟩

theorem pyStrip_length (l : List Char) : (pyStrip l).length ≤ l.length := by
  rw [pyStrip]
  rw [List.length_reverse]
  calc ((l.dropWhile isPySpace).reverse.dropWhile isPySpace).length
      ≤ (l.dropWhile isPySpace).reverse.length :=
        (List.dropWhile_sublist _).length_le
    _ = (l.dropWhile isPySpace).length := List.length_reverse _
    _ ≤ l.length := (List.dropWhile_sublist _).length_le

/-- An "atomic unit" of the `_split_preserving_tables` loop over a
subsection `sub`: a part of the table-pattern split, a `'\n\n'`-separated
paragraph of such a part, or a paragraph prefixed with the overlap carry
and the `'\n\n'` joiner.  These are exactly the values the loop may
install as a fresh `current_chunk` without any size check. -/
def IsAtomicUnit (sub : List Char) (u : List Char) : Prop :=
  ∃ p ∈ (tableSplit sub).map Prod.fst,
    u = p ∨ ∃ q ∈ splitOnNN p, u = q ∨ ∃ w, u = w ++ '\n' :: '\n' :: q

/-- Invariant for a chunk already emitted: in budget, or the strip of an
atomic unit. -/
def GoodChunk (sub : List Char) (cs : Nat) (c : List Char) : Prop :=
  2 * c.length ≤ 3 * cs + 4 ∨ ∃ u, IsAtomicUnit sub u ∧ c = pyStrip u

/-- Invariant for the accumulating `current_chunk`: in budget, or itself
an atomic unit. -/
def GoodCur (sub : List Char) (cs : Nat) (cur : List Char) : Prop :=
  2 * cur.length ≤ 3 * cs + 4 ∨ IsAtomicUnit sub cur

theorem goodChunk_flush (sub : List Char) (cs : Nat) (chunks : List (List Char))
    (cur : List Char) (hch : ∀ c ∈ chunks, GoodChunk sub cs c)
    (hcur : GoodCur sub cs cur) :
    ∀ c ∈ flushCurrent (chunks, cur), GoodChunk sub cs c := by
  intro c hc
  rw [flushCurrent] at hc
  by_cases hns : pyStrip (chunks, cur).2 ≠ []
  · rw [if_pos hns] at hc
    rcases List.mem_append.mp hc with h | h
    · exact hch c h
    · have hce : c = pyStrip cur := by simpa using h
      rcases hcur with hb | ha
      · left
        have := pyStrip_length cur
        rw [hce]
        omega
      · exact .inr ⟨cur, ha, hce⟩
  · rw [if_neg hns] at hc
    exact hch c hc

theorem paraFold_inv (sub : List Char) (cs ov : Nat) (p : List Char)
    (hp : p ∈ (tableSplit sub).map Prod.fst) :
    ∀ (paras chunks : List (List Char)) (cur : List Char),
      (∀ q ∈ paras, q ∈ splitOnNN p) →
      (∀ c ∈ chunks, GoodChunk sub cs c) → GoodCur sub cs cur →
      (∀ c ∈ (paraFold cs ov (chunks, cur) paras).1, GoodChunk sub cs c) ∧
        GoodCur sub cs (paraFold cs ov (chunks, cur) paras).2
  | [], _, _, _, hch, hcur => ⟨hch, hcur⟩
  | para :: rest, chunks, cur, hq, hch, hcur => by
    simp only [paraFold]
    by_cases hfit : cur.length + para.length ≤ cs
    · rw [if_pos hfit]
      refine paraFold_inv sub cs ov p hp rest _ _
        (fun q hqq => hq q (List.mem_cons_of_mem _ hqq)) hch ?_
      left
      have hlen2 : (cur ++ (if cur.isEmpty then [] else ['\n', '\n']) ++ para).length ≤
          cur.length + 2 + para.length := by
        by_cases he : cur.isEmpty <;> simp [he, List.length_append] <;> omega
      omega
    · rw [if_neg hfit]
      have hpara : para ∈ splitOnNN p := hq para (List.mem_cons_self _ _)
      refine paraFold_inv sub cs ov p hp rest _ _
        (fun q hqq => hq q (List.mem_cons_of_mem _ hqq))
        (goodChunk_flush sub cs chunks cur hch hcur) ?_
      by_cases hcc : flushCurrent (chunks, cur) ≠ [] ∧ 0 < ov
      · rw [if_pos hcc]
        exact .inr ⟨p, hp, .inr ⟨para, hpara, .inr ⟨_, rfl⟩⟩⟩
      · rw [if_neg hcc]
        exact .inr ⟨p, hp, .inr ⟨para, hpara, .inl rfl⟩⟩

theorem partFold_inv (sub : List Char) (cs ov : Nat) :
    ∀ (parts chunks : List (List Char)) (cur : List Char),
      (∀ p ∈ parts, p ∈ (tableSplit sub).map Prod.fst) →
      (∀ c ∈ chunks, GoodChunk sub cs c) → GoodCur sub cs cur →
      (∀ c ∈ (partFold cs ov (chunks, cur) parts).1, GoodChunk sub cs c) ∧
        GoodCur sub cs (partFold cs ov (chunks, cur) parts).2
  | [], _, _, _, hch, hcur => ⟨hch, hcur⟩
  | part :: rest, chunks, cur, hps, hch, hcur => by
    have hpmem : part ∈ (tableSplit sub).map Prod.fst := hps part (List.mem_cons_self _ _)
    have hrest : ∀ p ∈ rest, p ∈ (tableSplit sub).map Prod.fst :=
      fun p hp => hps p (List.mem_cons_of_mem _ hp)
    simp only [partFold]
    by_cases hempty : pyStrip part = []
    · rw [if_pos hempty]
      exact partFold_inv sub cs ov rest chunks cur hrest hch hcur
    · rw [if_neg hempty]
      by_cases htab : isTablePart part = true
      · rw [if_pos htab]
        by_cases hfit : 2 * (cur.length + part.length) ≤ 3 * cs
        · rw [if_pos hfit]
          refine partFold_inv sub cs ov rest _ _ hrest hch ?_
          left
          rw [List.length_append]
          omega
        · rw [if_neg hfit]
          refine partFold_inv sub cs ov rest _ _ hrest
            (goodChunk_flush sub cs chunks cur hch hcur) ?_
          exact .inr ⟨part, hpmem, .inl rfl⟩
      · rw [if_neg htab]
        have hpf := paraFold_inv sub cs ov part hpmem (splitOnNN part) chunks cur
          (fun _ hqq => hqq) hch hcur
        exact partFold_inv sub cs ov rest _ _ hrest hpf.1 hpf.2

theorem splitPreservingTables_good (sub : List Char) (cs ov : Nat) :
    ∀ c ∈ split_preserving_tables sub cs ov, GoodChunk sub cs c := by
  have h := partFold_inv sub cs ov ((tableSplit sub).map Prod.fst) [] []
    (fun _ hp => hp) (by simp) (.inl (by simp))
  intro c hc
  rw [split_preserving_tables] at hc
  exact goodChunk_flush sub cs _ _ h.1 h.2 c hc

/-- **C4** (amended): every chunk emitted by `chunk_text` either has
length within the budget (`2·len ≤ 3·max_size + 4`, i.e. at most
`1.5 × max_size + 2`, the `+2` being the `'\n\n'` paragraph joiner
appended after the size check), or is — up to whitespace stripping — a
single indivisible unit that was installed as a fresh `current_chunk`
without any size check: one table-split part, one paragraph, or one
paragraph prefixed by the overlap carry.  An oversized such unit passes
through unsplit, which is what the counterexample exhibits. -/
theorem c4_chunk_bound_amended (text : List Char) (cs ov : Nat) :
    ∀ c ∈ chunk_text text cs ov,
      2 * c.length ≤ 3 * cs + 4 ∨
      ∃ sec ∈ sectionSplit text, ∃ sub ∈ subsectionSplit sec,
        ∃ u, IsAtomicUnit sub u ∧ c = pyStrip u := by
  intro c hc
  rw [chunk_text] at hc
  by_cases hsmall : text.length ≤ cs
  · rw [if_pos hsmall] at hc
    have : c = text := by simpa using hc
    subst this
    left
    omega
  · rw [if_neg hsmall] at hc
    have hc1 := (List.mem_filter.mp hc).1
    rcases List.mem_flatMap.mp hc1 with ⟨sec, hsec, hc2⟩
    by_cases hslen : sec.length ≤ cs
    · rw [if_pos hslen] at hc2
      have : c = pyStrip sec := by
        by_cases hne : pyStrip sec ≠ []
        · rw [if_pos hne] at hc2; simpa using hc2
        · rw [if_neg hne] at hc2; exact absurd hc2 (by simp)
      subst this
      left
      have := pyStrip_length sec
      omega
    · rw [if_neg hslen] at hc2
      rcases List.mem_flatMap.mp hc2 with ⟨sub, hsub, hc3⟩
      by_cases hblen : sub.length ≤ cs
      · rw [if_pos hblen] at hc3
        have : c = pyStrip sub := by
          by_cases hne : pyStrip sub ≠ []
          · rw [if_pos hne] at hc3; simpa using hc3
          · rw [if_neg hne] at hc3; exact absurd hc3 (by simp)
        subst this
        left
        have := pyStrip_length sub
        omega
      · rw [if_neg hblen] at hc3
        rcases splitPreservingTables_good sub cs ov c hc3 with hb | ⟨u, hu, hcu⟩
        · exact .inl hb
        · exact .inr ⟨sec, hsec, sub, hsub, u, hu, hcu⟩

set_option maxRecDepth 8000 in
/-- Witness for the amended C4 at the counterexample input: the emitted
70-character chunk is itself an indivisible paragraph, as the amended
claim predicts. -/
theorem c4_chunk_bound_amended_witness :
    List.replicate 70 'a' ∈ chunk_text (List.replicate 70 'a') 40 0 ∧
    (2 * (List.replicate 70 'a').length ≤ 3 * 40 + 4 ∨
      ∃ sec ∈ sectionSplit (List.replicate 70 'a'), ∃ sub ∈ subsectionSplit sec,
        ∃ u, IsAtomicUnit sub u ∧ List.replicate 70 'a' = pyStrip u) :=
  ⟨by decide, c4_chunk_bound_amended (List.replicate 70 'a') 40 0
    (List.replicate 70 'a') (by decide)⟩

end PrivateAI
